import Mathlib

/-!
Verification of the candidate normalization, scoring and selection pipeline of
the OCR shipping-label extractor.

The development shallowly embeds the two algorithmic modules of the repository,
`src/pattern_refiner.py` (class `PatternRefiner`) and `src/text_extraction.py`
(class `TextExtractor`), over `List Char` as the string type.  Python string
operations (`strip`, `split`, `in`, `replace`, `str.lower`, regular-expression
search and substitution for the five concrete patterns used by the extractor)
are modelled by executable Lean functions defined below; fallible Python code
(tuple unpacking of `str.split` results, which raises `ValueError` when the
number of parts differs from two) is modelled with `Option`, `none` standing
for a raised exception.
-/

/-- Python string model: a string is its list of characters. -/
abbrev Str := List Char

/-- Digit class `[0-9]` (Python regex `\d` on ASCII input, and `[^0-9]` complements). -/
def pyIsDigit (c : Char) : Bool := 48 ≤ c.toNat && c.toNat ≤ 57

/-- ASCII upper-case letter `[A-Z]`. -/
def pyIsUpper (c : Char) : Bool := 65 ≤ c.toNat && c.toNat ≤ 90

/-- ASCII lower-case letter `[a-z]`. -/
def pyIsLower (c : Char) : Bool := 97 ≤ c.toNat && c.toNat ≤ 122

/-- Letter class `[a-zA-Z]` as used by the extraction patterns and by `_norm`. -/
def pyIsAlpha (c : Char) : Bool := pyIsUpper c || pyIsLower c

/-- Python whitespace (`str.split` / regex `\s` on ASCII): space, tab,
newline, carriage return, vertical tab, form feed. -/
def pyIsSpace (c : Char) : Bool :=
  c.toNat == 32 || c.toNat == 9 || c.toNat == 10 || c.toNat == 13 ||
  c.toNat == 11 || c.toNat == 12

/-- Python `str.lower` on a single ASCII character. -/
def pyToLower (c : Char) : Char :=
  if pyIsUpper c then Char.ofNat (c.toNat + 32) else c

/-- Python `str.strip()`: drop whitespace from both ends. -/
def pyStrip (l : Str) : Str :=
  ((l.dropWhile pyIsSpace).reverse.dropWhile pyIsSpace).reverse

/-- Test `begins pat s`: `pat` is a prefix of `s`. -/
def begins : Str → Str → Bool
  | [], _ => true
  | _ :: _, [] => false
  | a :: as, b :: bs => a == b && begins as bs

/-- Split `s` at the first occurrence of `sep`: `some (before, after)` when
`sep` occurs in `s`, `none` otherwise.  Backbone of Python's substring
operators `in` and `str.split(sep)` for a non-empty `sep`. -/
def breakOn (sep : Str) : Str → Option (Str × Str)
  | [] => none
  | c :: cs =>
    if begins sep (c :: cs) then some ([], (c :: cs).drop sep.length)
    else (breakOn sep cs).map (fun pr => (c :: pr.1, pr.2))

/-- Python `sep in s` for a non-empty separator. -/
def pyContains (sep s : Str) : Bool := (breakOn sep s).isSome

/-- Fuel-driven worker for `splitOnL`; the fuel is an upper bound on the
number of split steps, always sufficient at the chosen call site. -/
def splitOnAux : Nat → Str → Str → List Str
  | 0, _, s => [s]
  | fuel + 1, sep, s =>
    match breakOn sep s with
    | none => [s]
    | some (a, b) => a :: splitOnAux fuel sep b

/-- Python `s.split(sep)` for a non-empty separator. -/
def splitOnL (sep s : Str) : List Str := splitOnAux (s.length + 1) sep s

/-- The literal separator token `"_1_"`. -/
def sepA : Str := ['_', '1', '_']

/-- The literal separator token `"_1"`. -/
def sepB : Str := ['_', '1']

/-- Inner recursion of `PatternRefiner._levenshtein` (source lines 11-26):
the standard unit-cost edit-distance recurrence computed by the source's
dynamic-programming table `dp`, with `levAux x a levA b` playing the role of
row `i` (first string `x :: a`) as a function of the second string `b`,
given the previous row `levA = levRec a`. -/
def levAux (x : Char) (a : Str) (levA : Str → Nat) : Str → Nat
  | [] => a.length + 1
  | y :: b =>
    min (levA (y :: b) + 1)
      (min (levAux x a levA b + 1) (levA b + (if x = y then 0 else 1)))

/-- Edit-distance recurrence: `levRec a b` equals `dp[len a][len b]` of the
source's table. -/
def levRec : Str → Str → Nat
  | [], b => b.length
  | x :: a, b => levAux x a (levRec a) b

/-- Model of `PatternRefiner._levenshtein`, including the `a == b` early return. -/
def _levenshtein (a b : Str) : Nat := if a = b then 0 else levRec a b

/-- The first-seen deduplication loop of `PatternRefiner.choose_best`
(source lines 32-37): `seen` collects candidates already emitted. -/
def uniqAux (seen : List Str) : List Str → List Str
  | [] => []
  | c :: cs => if c ∈ seen then uniqAux seen cs else c :: uniqAux (c :: seen) cs

/-- The `unique` list of `PatternRefiner.choose_best`: first-seen order,
duplicates removed. -/
def uniqFirstSeen (l : List Str) : List Str := uniqAux [] l

/-- Python `max(l, key=key)` on a list: first element attaining the maximal
key (later elements replace the current best only on a strictly greater key);
`none` on the empty list, where Python raises. -/
def pyMaxStep (key : Str → Nat) (b c : Str) : Str :=
  if key b < key c then c else b

def pyMaxBy (key : Str → Nat) : List Str → Option Str
  | [] => none
  | x :: xs => some (xs.foldl (pyMaxStep key) x)

/-- The `best_dist` loop of `PatternRefiner.choose_best` (source lines
43-49): minimum Levenshtein distance from any candidate of `l` to `g`;
`none` when `l` is empty (in the source `best_dist` stays `None`). -/
def minDistStep (g : Str) (acc : Option Nat) (c : Str) : Option Nat :=
  let d := _levenshtein c g
  match acc with
  | none => some d
  | some bd => some (if d < bd then d else bd)

def minDist (g : Str) (l : List Str) : Option Nat :=
  l.foldl (minDistStep g) none

/-- Model of `PatternRefiner.choose_best(raw_candidates, score_map, ground_truth)`
(source lines 28-57).  `sm` models the Python dict `score_map` through its
lookup function `score_map.get(c, 0)`; `gt = none` models `ground_truth=None`
and the `if ground_truth:` truthiness test makes an empty string behave like
`None`.  The `minDist _ _ = none` branch is unreachable because `unique` is
non-empty whenever `raw` is. -/
def choose_best (maxSnap : Nat) (raw : List Str) (sm : Str → Nat)
    (gt : Option Str) : Option Str :=
  if raw.isEmpty then none
  else
    let unique := uniqFirstSeen raw
    match gt with
    | some g =>
      if g.isEmpty then pyMaxBy sm unique
      else
        match minDist g unique with
        | some bd => if bd ≤ maxSnap then some g else pyMaxBy sm unique
        | none => pyMaxBy sm unique
    | none => pyMaxBy sm unique

/-- Python `t.replace(a, b)` for single-character `a`, `b`. -/
def pyReplaceChar (a b : Char) (l : Str) : Str :=
  l.map (fun c => if c == a then b else c)

/-- Fuel-driven worker for `pySplitWs`. -/
def pySplitWsAux : Nat → Str → List Str
  | 0, _ => []
  | _ + 1, [] => []
  | fuel + 1, c :: cs =>
    if pyIsSpace c then pySplitWsAux fuel cs
    else
      (c :: cs).takeWhile (fun x => !pyIsSpace x) ::
        pySplitWsAux fuel ((c :: cs).dropWhile (fun x => !pyIsSpace x))

/-- Python `t.split()` (no argument): split on whitespace runs, no empty
parts. -/
def pySplitWs (l : Str) : List Str := pySplitWsAux (l.length + 1) l

/-- Attempt to match the regex `\s*_\s*` at the head of `l`; on success
return the remainder after the match.  Greedy matching needs no backtracking
here because `'_'` is not a whitespace character. -/
def wsUnderscoreAt (l : Str) : Option Str :=
  match l.dropWhile pyIsSpace with
  | '_' :: r => some (r.dropWhile pyIsSpace)
  | _ => none

/-- Fuel-driven worker for `pySubWsUnderscore`. -/
def pySubWsUnderscoreAux : Nat → Str → Str
  | 0, s => s
  | _ + 1, [] => []
  | fuel + 1, c :: cs =>
    match wsUnderscoreAt (c :: cs) with
    | some rest => '_' :: pySubWsUnderscoreAux fuel rest
    | none => c :: pySubWsUnderscoreAux fuel cs

/-- Python `re.sub(r"\s*_\s*", "_", t)`: left-to-right scan, each match of
the pattern replaced by a single underscore. -/
def pySubWsUnderscore (l : Str) : Str := pySubWsUnderscoreAux (l.length + 1) l

/-- Fuel-driven worker for `pySubWsDigits`; `prevD` records whether the
character preceding the current scan position is a digit (the `(?<=\d)`
lookbehind, examining the original text). -/
def pySubWsDigitsAux : Nat → Bool → Str → Str
  | 0, _, s => s
  | _ + 1, _, [] => []
  | fuel + 1, prevD, c :: cs =>
    if pyIsSpace c && prevD then
      let run := (c :: cs).takeWhile pyIsSpace
      let rest := (c :: cs).dropWhile pyIsSpace
      match rest with
      | d :: _ =>
        if pyIsDigit d then pySubWsDigitsAux fuel false rest
        else run ++ pySubWsDigitsAux fuel false rest
      | [] => run
    else c :: pySubWsDigitsAux fuel (pyIsDigit c) cs

/-- Python `re.sub(r"(?<=\d)\s+(?=\d)", "", t)`: delete every whitespace run
located between two digits. -/
def pySubWsDigits (l : Str) : Str := pySubWsDigitsAux (l.length + 1) false l

/-- Model of `TextExtractor._clean_text` (source lines 22-27): replace newlines by
spaces, collapse whitespace runs to single spaces, strip whitespace around
underscores, delete whitespace between digits. -/
def _clean_text (t : Str) : Str :=
  pySubWsDigits (pySubWsUnderscore
    (List.intercalate [' '] (pySplitWs (pyReplaceChar '\r' ' ' (pyReplaceChar '\n' ' ' t)))))

/-- Body of `TextExtractor._norm` after the initial `p = p.strip()`
reassignment (source lines 31-39). -/
def normCore (q : Str) : Option Str :=
  if pyContains sepA q then
    match splitOnL sepA q with
    | [n, s] => some (n.filter pyIsDigit ++ sepA ++ (s.filter pyIsAlpha).map pyToLower)
    | _ => none
  else if pyContains sepB q then
    some (((splitOnL sepB q).headD []).filter pyIsDigit ++ sepB)
  else
    some (q.filter pyIsDigit)

/-- Model of `TextExtractor._norm` (source lines 29-39).  `none` models the
`ValueError` Python raises in `n, s = p.split("_1_")` when the stripped
input contains the separator `"_1_"` more than once; that situation never
arises for the pattern matches the extractor feeds to `_norm`. -/
def _norm (p : Str) : Option Str := normCore (pyStrip p)

/-- Model of `TextExtractor._score` (source lines 41-52).  `none` models the
`ValueError` of `n, s = p.split("_1_")` exactly as in `_norm`.  Note the
fall-through: a candidate containing `"_1"` whose digit part is shorter
than 15 characters is scored by the final bare-length rule, not by the
`"_1"` rule. -/
def _score (p : Str) : Option Nat :=
  if pyContains sepA p then
    match splitOnL sepA p with
    | [n, s] =>
      some ((if n.length == 18 then 100 else if 16 ≤ n.length then 80 else 0) +
        (if s.length == 3 then 50 else 0) + 20)
    | _ => none
  else if pyContains sepB p then
    if 15 ≤ ((splitOnL sepB p).headD []).length then some 60
    else some (if 15 ≤ p.length then 20 else 0)
  else some (if 15 ≤ p.length then 20 else 0)

/-- Character classes occurring in the extractor's five regular
expressions. -/
inductive CC where
  | digit
  | alpha
  | space
  | ch (c : Char)

/-- Interpretation of a character class. -/
def ccFn : CC → Char → Bool
  | .digit => pyIsDigit
  | .alpha => pyIsAlpha
  | .space => pyIsSpace
  | .ch a => fun c => c == a

/-- One regex element: a character class with a greedy counted repetition
`{lo,hi}` (`hi = none` meaning unbounded, as in `\s*`).  A literal character
`x` is `⟨.ch x, 1, some 1⟩`. -/
structure RItem where
  cc : CC
  lo : Nat
  hi : Option Nat

/-- First successful application of `f` over a list of repetition counts. -/
def firstSome {α : Type} (f : Nat → Option α) : List Nat → Option α
  | [] => none
  | k :: ks =>
    match f k with
    | some r => some r
    | none => firstSome f ks

/-- Candidate repetition counts `[k0, k0-1, ..., lo]` (empty when
`k0 < lo`), in the greedy backtracking order of the `re` engine. -/
def downList (lo k0 : Nat) : List Nat := (List.range' lo (k0 + 1 - lo)).reverse

/-- Match a regex (a sequence of `RItem`s) at the start of `s`, with greedy
backtracking over repetition counts; returns `(matched, rest)`.  Because
every repetition is over a single character class, any count up to the
length of the maximal class run works, which the `downList` enumeration
exploits exactly as the `re` engine does. -/
def matchItems : List RItem → Str → Option (Str × Str)
  | [], s => some ([], s)
  | it :: rest, s =>
    let run := (s.takeWhile (ccFn it.cc)).length
    let k0 := match it.hi with
      | some h => min h run
      | none => run
    firstSome
      (fun k => (matchItems rest (s.drop k)).map (fun pr => (s.take k ++ pr.1, pr.2)))
      (downList it.lo k0)

/-- Fuel-driven worker for `finditer`: scan left to right, at each position
try the pattern; on success emit the match and resume after it, otherwise
advance one character.  The empty-match branch mirrors the advance-by-one
rule of the `re` engine and is unreachable for the extractor's patterns,
whose first element requires at least 15 characters. -/
def finditerAux : Nat → List RItem → Str → List Str
  | 0, _, _ => []
  | fuel + 1, pat, s =>
    match matchItems pat s with
    | some (m, r) =>
      if m.isEmpty then
        match s with
        | [] => [m]
        | _ :: cs => m :: finditerAux fuel pat cs
      else m :: finditerAux fuel pat r
    | none =>
      match s with
      | [] => []
      | _ :: cs => finditerAux fuel pat cs

/-- Python `pat.finditer(s)`: the list of non-overlapping matches, scanned
left to right. -/
def finditer (pat : List RItem) (s : Str) : List Str :=
  finditerAux (s.length + 1) pat s

/-- A literal regex character. -/
def rlit (c : Char) : RItem := ⟨.ch c, 1, some 1⟩

/-- The list `self.patterns` of `TextExtractor.__init__` (source lines 14-20):
1. `\d{18}_1_[a-zA-Z]{3}`
2. `\d{15,20}_1_[a-zA-Z]{1,3}`
3. `\d{15,20}\s*_\s*1\s*_\s*[a-zA-Z]{0,3}`
4. `\d{15,20}_1`
5. `\d{15,20}` -/
def patterns : List (List RItem) :=
  [ [⟨.digit, 18, some 18⟩, rlit '_', rlit '1', rlit '_', ⟨.alpha, 3, some 3⟩],
    [⟨.digit, 15, some 20⟩, rlit '_', rlit '1', rlit '_', ⟨.alpha, 1, some 3⟩],
    [⟨.digit, 15, some 20⟩, ⟨.space, 0, none⟩, rlit '_', ⟨.space, 0, none⟩, rlit '1',
      ⟨.space, 0, none⟩, rlit '_', ⟨.space, 0, none⟩, ⟨.alpha, 0, some 3⟩],
    [⟨.digit, 15, some 20⟩, rlit '_', rlit '1'],
    [⟨.digit, 15, some 20⟩] ]

/-- The `found.append` loop of `TextExtractor._extract_from_text`:
normalize every match, keep the truthy (non-empty) results; `none`
propagates a `_norm` exception. -/
def appendNorms : List Str → Option (List Str)
  | [] => some []
  | m :: ms =>
    (_norm m).bind fun n =>
      (appendNorms ms).map fun rest => if n.isEmpty then rest else n :: rest

/-- Model of `TextExtractor._extract_from_text` (source lines 54-62): clean the text,
run every pattern over it in order, normalize and collect the matches. -/
def _extract_from_text (text : Str) : Option (List Str) :=
  let t := _clean_text text
  appendNorms (patterns.flatMap (fun pat => finditer pat t))

/-- The `all_cands.extend` loop of `TextExtractor.extract_best_from_texts`
(source lines 65-67). -/
def collectCands : List Str → Option (List Str)
  | [] => some []
  | t :: ts =>
    (_extract_from_text t).bind fun c1 =>
      (collectCands ts).map fun rest => c1 ++ rest

/-- Pointwise update of a score map, modelling `score_map[c] = v`. -/
def updMap (m : Str → Nat) (c : Str) (v : Nat) : Str → Nat :=
  fun x => if x = c then v else m x

/-- The score-map loop of `TextExtractor.extract_best_from_texts` (source
lines 73-76): `score_map[c] = max(score_map.get(c, 0), sc)`.  The Python
dict is modelled by its lookup-with-default-0 function. -/
def buildScoreMap : List Str → (Str → Nat) → Option (Str → Nat)
  | [], m => some m
  | c :: cs, m =>
    (_score c).bind fun sc => buildScoreMap cs (updMap m c (max (m c) sc))

/-- Python `self.gt_map[name]` guarded by `name in self.gt_map`, the dict
modelled as an association list. -/
def lookupGT (gm : List (Str × Str)) (name : Str) : Option Str :=
  (gm.find? (fun pr => pr.1 == name)).map (fun pr => pr.2)

/-- Model of `TextExtractor.extract_best_from_texts(texts, image_name)` (source lines
64-87), with the constructor state `ground_truth_map` (`gm`) and
`max_snap_distance` (`maxSnap`, default 3) passed explicitly.  The outer
`Option` models exception propagation; the inner one is the function's own
`None`-or-string result.  `image_name and image_name in self.gt_map` is the
truthiness test: a `none` or empty image name never consults the map. -/
def extract_best_from_texts (gm : List (Str × Str)) (maxSnap : Nat)
    (texts : List Str) (image_name : Option Str) : Option (Option Str) :=
  (collectCands texts).bind fun all_cands =>
    if all_cands.isEmpty then some none
    else
      (buildScoreMap all_cands (fun _ => 0)).bind fun score_map =>
        let gt : Option Str :=
          match image_name with
          | some name => if name.isEmpty then none else lookupGT gm name
          | none => none
        some (choose_best maxSnap all_cands score_map gt)

/-- A digit-only string (the candidate shape `<digits>`). -/
def DigitStr (n : Str) : Prop := ∀ c ∈ n, pyIsDigit c = true

/-- A lower-case-letters-only string (the canonical suffix shape). -/
def LowerStr (s : Str) : Prop := ∀ c ∈ s, pyIsLower c = true

instance decDigitStr (l : Str) : Decidable (DigitStr l) :=
  inferInstanceAs (Decidable (∀ c ∈ l, pyIsDigit c = true))

instance decLowerStr (l : Str) : Decidable (LowerStr l) :=
  inferInstanceAs (Decidable (∀ c ∈ l, pyIsLower c = true))

/-- The three canonical candidate shapes of the data model:
`<digits>_1_<letters>` (lower-case suffix), `<digits>_1`, `<digits>`. -/
def Canonical (p : Str) : Prop :=
  (∃ n s, DigitStr n ∧ LowerStr s ∧ p = n ++ sepA ++ s) ∨
  (∃ n, DigitStr n ∧ p = n ++ sepB) ∨
  DigitStr p

/-- Returns `true` when some suffix of `l` starts with at least `k` digits, i.e.
`l` contains a run of `k` consecutive digits. -/
def hasRunGe (k : Nat) : Str → Bool
  | [] => k == 0
  | c :: cs => (if k ≤ ((c :: cs).takeWhile pyIsDigit).length then true else hasRunGe k cs)

/-- Maximum of a list of scores, zero for the empty list (spec-side
aggregation used to state the ScoreMap invariant). -/
def listMax (l : List Nat) : Nat := l.foldr max 0

/-- Scores of all occurrences of candidate `c` in `cands` (spec-side,
used to state the ScoreMap invariant); defined only when every occurrence
scores without an exception, which `filterMap` realizes by skipping
failures. -/
def occurScores (cands : List Str) (c : Str) : List Nat :=
  (cands.filter (fun x => x == c)).filterMap _score

/-- Modelled from the spec's words for the CandidateScorer contract
(spec section 4.5), for comparison with the implementation `_score`:
`digits_1_suffix` shape: base 20, +100 if the digit run has length 18, else
+80 if at least 16, +50 if the suffix has length 3; `digits_1` shape: 60 if
the digit run has length at least 15, else 0; bare digits: 20 if the length
is at least 15, else 0. -/
def specScore (p : Str) : Nat :=
  match breakOn sepA p with
  | some (n, s) =>
    20 + (if n.length = 18 then 100 else if 16 ≤ n.length then 80 else 0) +
      (if s.length = 3 then 50 else 0)
  | none =>
    match breakOn sepB p with
    | some (n, _) => if 15 ≤ n.length then 60 else 0
    | none => if 15 ≤ p.length then 20 else 0

/-! ## Character-level helper lemmas -/

theorem toNat_ofNat_small (k : Nat) (h : k < 55296) : (Char.ofNat k).toNat = k := by
  have hv : Nat.isValidChar k := Or.inl h
  simp only [Char.ofNat, hv, dite_true, Char.ofNatAux, Char.toNat, UInt32.toNat]
  simp [BitVec.toNat_ofNatLt]

theorem pyToLower_lower {c : Char} (h : pyIsAlpha c = true) :
    pyIsLower (pyToLower c) = true := by
  unfold pyIsAlpha pyIsUpper pyIsLower at *
  unfold pyToLower pyIsUpper
  by_cases hu : (65 ≤ c.toNat && c.toNat ≤ 90) = true
  · simp only [hu, if_true]
    simp only [Bool.and_eq_true, decide_eq_true_eq] at hu
    have : (Char.ofNat (c.toNat + 32)).toNat = c.toNat + 32 :=
      toNat_ofNat_small _ (by omega)
    simp only [this, Bool.and_eq_true, decide_eq_true_eq]
    omega
  · simp only [hu, Bool.false_eq_true, if_false]
    simp only [Bool.or_eq_true, Bool.and_eq_true, decide_eq_true_eq] at h hu
    simp only [Bool.and_eq_true, decide_eq_true_eq]
    omega

theorem pyToLower_fix {c : Char} (h : pyIsLower c = true) : pyToLower c = c := by
  unfold pyIsLower at h
  unfold pyToLower pyIsUpper
  simp only [Bool.and_eq_true, decide_eq_true_eq] at h
  have : (65 ≤ c.toNat && c.toNat ≤ 90) = false := by
    simp only [Bool.and_eq_false_iff, decide_eq_false_iff_not]
    omega
  simp [this]

theorem ne_of_toNat_ne {c d : Char} (h : c.toNat ≠ d.toNat) : c ≠ d :=
  fun he => h (congrArg Char.toNat he)

theorem digit_ne_underscore {c : Char} (h : pyIsDigit c = true) : c ≠ '_' := by
  unfold pyIsDigit at h
  simp only [Bool.and_eq_true, decide_eq_true_eq] at h
  exact ne_of_toNat_ne (by simpa using by omega)

theorem lower_ne_underscore {c : Char} (h : pyIsLower c = true) : c ≠ '_' := by
  unfold pyIsLower at h
  simp only [Bool.and_eq_true, decide_eq_true_eq] at h
  exact ne_of_toNat_ne (by simpa using by omega)

theorem digit_not_space {c : Char} (h : pyIsDigit c = true) : pyIsSpace c = false := by
  unfold pyIsDigit at h
  unfold pyIsSpace
  simp only [Bool.and_eq_true, decide_eq_true_eq] at h
  simp only [Bool.or_eq_false_iff, beq_eq_false_iff_ne]
  omega

theorem lower_not_space {c : Char} (h : pyIsLower c = true) : pyIsSpace c = false := by
  unfold pyIsLower at h
  unfold pyIsSpace
  simp only [Bool.and_eq_true, decide_eq_true_eq] at h
  simp only [Bool.or_eq_false_iff, beq_eq_false_iff_ne]
  omega

theorem lower_alpha {c : Char} (h : pyIsLower c = true) : pyIsAlpha c = true := by
  unfold pyIsAlpha; simp [h]

/-! ## List-level helper lemmas -/

theorem dropWhile_no {p : Char → Bool} {l : Str} (h : ∀ c ∈ l, p c = false) :
    l.dropWhile p = l := by
  cases l with
  | nil => rfl
  | cons c cs => simp [List.dropWhile_cons, h c (by simp)]

theorem pyStrip_no {l : Str} (h : ∀ c ∈ l, pyIsSpace c = false) : pyStrip l = l := by
  unfold pyStrip
  rw [dropWhile_no h, dropWhile_no (by intro c hc; exact h c (by simpa using hc))]
  simp

theorem filter_all {p : Char → Bool} {l : Str} (h : ∀ c ∈ l, p c = true) :
    l.filter p = l := List.filter_eq_self.mpr h

theorem map_fix {f : Char → Char} {l : Str} (h : ∀ c ∈ l, f c = c) : l.map f = l := by
  induction l with
  | nil => rfl
  | cons c cs ih =>
    simp only [List.map_cons, h c (by simp), ih (fun d hd => h d (by simp [hd]))]

/-! ## Lemmas about `begins`, `breakOn`, `splitOnL` -/

theorem begins_append (l r : Str) : begins l (l ++ r) = true := by
  induction l with
  | nil => rfl
  | cons c cs ih => simp [begins, ih]

theorem breakOn_cons (sep : Str) (c : Char) (cs : Str) :
    breakOn sep (c :: cs) =
      if begins sep (c :: cs) then some ([], (c :: cs).drop sep.length)
      else (breakOn sep cs).map (fun pr => (c :: pr.1, pr.2)) := rfl

theorem splitOnAux_succ (f : Nat) (sep s : Str) :
    splitOnAux (f + 1) sep s =
      match breakOn sep s with
      | none => [s]
      | some (a, b) => a :: splitOnAux f sep b := rfl

theorem breakOn_shape {tl a b : Str} (ha : ∀ c ∈ a, c ≠ '_') :
    breakOn ('_' :: tl) (a ++ ('_' :: tl) ++ b) = some (a, b) := by
  induction a with
  | nil =>
    show breakOn ('_' :: tl) (('_' :: tl) ++ b) = some ([], b)
    cases b with
    | nil =>
      rw [List.append_nil, breakOn_cons]
      have : begins ('_' :: tl) ('_' :: tl ++ []) = true := begins_append _ _
      rw [List.append_nil] at this
      simp [this, List.drop_length]
    | cons y ys =>
      rw [List.cons_append, breakOn_cons, ← List.cons_append, begins_append]
      simp only [if_true]
      congr 1
      rw [List.drop_left]
  | cons x xs ih =>
    have hx : x ≠ '_' := ha x (by simp)
    have hb : begins ('_' :: tl) (x :: (xs ++ ('_' :: tl) ++ b)) = false := by
      simp only [begins, Bool.and_eq_false_iff, beq_eq_false_iff_ne]
      exact Or.inl (fun he => hx he.symm)
    show breakOn ('_' :: tl) (x :: (xs ++ ('_' :: tl) ++ b)) = some (x :: xs, b)
    rw [breakOn_cons, hb]
    simp only [Bool.false_eq_true, if_false]
    rw [ih (fun c hc => ha c (by simp [hc]))]
    rfl

theorem breakOn_no_underscore {tl s : Str} (hs : ∀ c ∈ s, c ≠ '_') :
    breakOn ('_' :: tl) s = none := by
  induction s with
  | nil => rfl
  | cons x xs ih =>
    have hx : x ≠ '_' := hs x (by simp)
    have hb : begins ('_' :: tl) (x :: xs) = false := by
      simp only [begins, Bool.and_eq_false_iff, beq_eq_false_iff_ne]
      exact Or.inl (fun he => hx he.symm)
    rw [breakOn_cons, hb]
    simp [ih (fun c hc => hs c (by simp [hc]))]

theorem breakOn_app_none {tl a r : Str} (ha : ∀ c ∈ a, c ≠ '_')
    (hr : breakOn ('_' :: tl) r = none) : breakOn ('_' :: tl) (a ++ r) = none := by
  induction a with
  | nil => simpa using hr
  | cons x xs ih =>
    have hx : x ≠ '_' := ha x (by simp)
    have hb : begins ('_' :: tl) (x :: (xs ++ r)) = false := by
      simp only [begins, Bool.and_eq_false_iff, beq_eq_false_iff_ne]
      exact Or.inl (fun he => hx he.symm)
    show breakOn ('_' :: tl) (x :: (xs ++ r)) = none
    rw [breakOn_cons, hb]
    simp [ih (fun c hc => ha c (by simp [hc]))]

theorem splitOnAux_pair {sep a b : Str} (f : Nat)
    (h1 : breakOn sep (a ++ sep ++ b) = some (a, b)) (h2 : breakOn sep b = none) :
    splitOnAux (f + 2) sep (a ++ sep ++ b) = [a, b] := by
  have e1 : f + 2 = (f + 1) + 1 := rfl
  rw [e1, splitOnAux_succ, h1]
  show a :: splitOnAux (f + 1) sep b = [a, b]
  rw [splitOnAux_succ, h2]

theorem splitOn_pair {tl a b : Str} (ha : ∀ c ∈ a, c ≠ '_')
    (hb : breakOn ('_' :: tl) b = none) :
    splitOnL ('_' :: tl) (a ++ ('_' :: tl) ++ b) = [a, b] := by
  unfold splitOnL
  have hlen : (a ++ ('_' :: tl) ++ b).length + 1 = (a.length + tl.length + b.length) + 2 := by
    simp [List.length_append]
    omega
  rw [hlen]
  exact splitOnAux_pair _ (breakOn_shape ha) hb

theorem splitOn_single {sep s : Str} (h : breakOn sep s = none) :
    splitOnL sep s = [s] := by
  unfold splitOnL
  rw [splitOnAux_succ, h]

/-! ## Shape lemmas for `_norm` and `_score` -/

theorem sepA_eq : sepA = '_' :: ['1', '_'] := rfl

theorem sepB_eq : sepB = '_' :: ['1'] := rfl

theorem digit_no_underscore {n : Str} (hn : DigitStr n) : ∀ c ∈ n, c ≠ '_' :=
  fun c hc => digit_ne_underscore (hn c hc)

theorem lower_no_underscore {s : Str} (hs : LowerStr s) : ∀ c ∈ s, c ≠ '_' :=
  fun c hc => lower_ne_underscore (hs c hc)

theorem breakOn_sepA_shape {n s : Str} (hn : DigitStr n) :
    breakOn sepA (n ++ sepA ++ s) = some (n, s) := by
  rw [sepA_eq]
  exact breakOn_shape (digit_no_underscore hn)

theorem breakOn_sepA_lower {s : Str} (hs : LowerStr s) : breakOn sepA s = none := by
  rw [sepA_eq]
  exact breakOn_no_underscore (lower_no_underscore hs)

theorem breakOn_sepA_digits {n : Str} (hn : DigitStr n) : breakOn sepA n = none := by
  rw [sepA_eq]
  exact breakOn_no_underscore (digit_no_underscore hn)

theorem breakOn_sepA_shapeB {n : Str} (hn : DigitStr n) :
    breakOn sepA (n ++ sepB) = none := by
  rw [sepA_eq]
  exact breakOn_app_none (digit_no_underscore hn) (by decide)

theorem breakOn_sepB_shapeB {n : Str} (hn : DigitStr n) :
    breakOn sepB (n ++ sepB) = some (n, []) := by
  have h : n ++ sepB = n ++ sepB ++ [] := by simp
  rw [h, sepB_eq]
  exact breakOn_shape (digit_no_underscore hn)

theorem breakOn_sepB_digits {n : Str} (hn : DigitStr n) : breakOn sepB n = none := by
  rw [sepB_eq]
  exact breakOn_no_underscore (digit_no_underscore hn)

theorem splitOn_sepA_shape {n s : Str} (hn : DigitStr n) (hb : breakOn sepA s = none) :
    splitOnL sepA (n ++ sepA ++ s) = [n, s] := by
  rw [sepA_eq] at *
  exact splitOn_pair (digit_no_underscore hn) hb

theorem splitOn_sepB_shapeB {n : Str} (hn : DigitStr n) :
    splitOnL sepB (n ++ sepB) = [n, []] := by
  have h : n ++ sepB = n ++ sepB ++ [] := by simp
  rw [h, sepB_eq]
  exact splitOn_pair (digit_no_underscore hn) rfl

theorem sepA_no_space : ∀ c ∈ sepA, pyIsSpace c = false := by decide

theorem sepB_no_space : ∀ c ∈ sepB, pyIsSpace c = false := by decide

theorem shapeA_no_space {n s : Str} (hn : DigitStr n) (hs : LowerStr s) :
    ∀ c ∈ n ++ sepA ++ s, pyIsSpace c = false := by
  intro c hc
  rcases List.mem_append.mp hc with hc' | hcs
  · rcases List.mem_append.mp hc' with hcn | hcsep
    · exact digit_not_space (hn c hcn)
    · exact sepA_no_space c hcsep
  · exact lower_not_space (hs c hcs)

theorem shapeB_no_space {n : Str} (hn : DigitStr n) :
    ∀ c ∈ n ++ sepB, pyIsSpace c = false := by
  intro c hc
  rcases List.mem_append.mp hc with hcn | hcsep
  · exact digit_not_space (hn c hcn)
  · exact sepB_no_space c hcsep

theorem digits_no_space {n : Str} (hn : DigitStr n) :
    ∀ c ∈ n, pyIsSpace c = false :=
  fun c hc => digit_not_space (hn c hc)

theorem normCore_shapeA {n s : Str} (hn : DigitStr n) (hs : LowerStr s) :
    normCore (n ++ sepA ++ s) = some (n ++ sepA ++ s) := by
  have hbrk : breakOn sepA (n ++ sepA ++ s) = some (n, s) := breakOn_sepA_shape hn
  have hc : pyContains sepA (n ++ sepA ++ s) = true := by
    unfold pyContains
    rw [hbrk]
    rfl
  unfold normCore
  rw [hc]
  simp only [if_true]
  rw [splitOn_sepA_shape hn (breakOn_sepA_lower hs)]
  show some (n.filter pyIsDigit ++ sepA ++ (s.filter pyIsAlpha).map pyToLower) =
    some (n ++ sepA ++ s)
  rw [filter_all hn, filter_all (fun c hc => lower_alpha (hs c hc)),
    map_fix (fun c hc => pyToLower_fix (hs c hc))]

theorem normCore_shapeB {n : Str} (hn : DigitStr n) :
    normCore (n ++ sepB) = some (n ++ sepB) := by
  have hcA : pyContains sepA (n ++ sepB) = false := by
    unfold pyContains
    rw [breakOn_sepA_shapeB hn]
    rfl
  have hcB : pyContains sepB (n ++ sepB) = true := by
    unfold pyContains
    rw [breakOn_sepB_shapeB hn]
    rfl
  unfold normCore
  rw [hcA, hcB]
  simp only [Bool.false_eq_true, if_false, if_true]
  rw [splitOn_sepB_shapeB hn]
  simp only [List.headD_cons]
  rw [filter_all hn]

theorem normCore_digits {n : Str} (hn : DigitStr n) : normCore n = some n := by
  have hcA : pyContains sepA n = false := by
    unfold pyContains
    rw [breakOn_sepA_digits hn]
    rfl
  have hcB : pyContains sepB n = false := by
    unfold pyContains
    rw [breakOn_sepB_digits hn]
    rfl
  unfold normCore
  rw [hcA, hcB]
  simp only [Bool.false_eq_true, if_false]
  rw [filter_all hn]

theorem canonical_norm_fix {p : Str} (h : Canonical p) : _norm p = some p := by
  unfold _norm
  rcases h with ⟨n, s, hn, hs, rfl⟩ | ⟨n, hn, rfl⟩ | hd
  · rw [pyStrip_no (shapeA_no_space hn hs)]
    exact normCore_shapeA hn hs
  · rw [pyStrip_no (shapeB_no_space hn)]
    exact normCore_shapeB hn
  · rw [pyStrip_no (digits_no_space hd)]
    exact normCore_digits hd

theorem filter_digit_all (l : Str) : DigitStr (l.filter pyIsDigit) :=
  fun _ hc => (List.mem_filter.mp hc).2

theorem norm_canonical {x p : Str} (h : _norm x = some p) : Canonical p := by
  unfold _norm normCore at h
  by_cases hA : pyContains sepA (pyStrip x) = true
  · rw [hA, if_pos rfl] at h
    cases hsp : splitOnL sepA (pyStrip x) with
    | nil => rw [hsp] at h; simp at h
    | cons n rest =>
      cases rest with
      | nil => rw [hsp] at h; simp at h
      | cons s rest2 =>
        cases rest2 with
        | cons t ts => rw [hsp] at h; simp at h
        | nil =>
          rw [hsp] at h
          have h2 : n.filter pyIsDigit ++ sepA ++ (s.filter pyIsAlpha).map pyToLower = p :=
            Option.some.inj h
          refine Or.inl ⟨n.filter pyIsDigit, (s.filter pyIsAlpha).map pyToLower,
            filter_digit_all n, ?_, h2.symm⟩
          intro c hc
          rcases List.mem_map.mp hc with ⟨d, hd, rfl⟩
          exact pyToLower_lower (List.mem_filter.mp hd).2
  · rw [if_neg hA] at h
    by_cases hB : pyContains sepB (pyStrip x) = true
    · rw [hB, if_pos rfl] at h
      have h2 : ((splitOnL sepB (pyStrip x)).headD []).filter pyIsDigit ++ sepB = p :=
        Option.some.inj h
      exact Or.inr (Or.inl ⟨((splitOnL sepB (pyStrip x)).headD []).filter pyIsDigit,
        filter_digit_all _, h2.symm⟩)
    · rw [if_neg hB] at h
      have h2 : (pyStrip x).filter pyIsDigit = p := Option.some.inj h
      refine Or.inr (Or.inr ?_)
      rw [← h2]
      exact filter_digit_all _

theorem score_shapeA {n s : Str} (hn : DigitStr n) (hs : LowerStr s) :
    _score (n ++ sepA ++ s) =
      some ((if n.length == 18 then 100 else if 16 ≤ n.length then 80 else 0) +
        (if s.length == 3 then 50 else 0) + 20) := by
  have hc : pyContains sepA (n ++ sepA ++ s) = true := by
    unfold pyContains
    rw [breakOn_sepA_shape hn]
    rfl
  unfold _score
  rw [hc]
  simp only [if_true]
  rw [splitOn_sepA_shape hn (breakOn_sepA_lower hs)]

theorem score_shapeB {n : Str} (hn : DigitStr n) :
    _score (n ++ sepB) =
      some (if 15 ≤ n.length then 60 else if 15 ≤ n.length + 2 then 20 else 0) := by
  have hcA : pyContains sepA (n ++ sepB) = false := by
    unfold pyContains
    rw [breakOn_sepA_shapeB hn]
    rfl
  have hcB : pyContains sepB (n ++ sepB) = true := by
    unfold pyContains
    rw [breakOn_sepB_shapeB hn]
    rfl
  unfold _score
  rw [hcA, hcB]
  simp only [Bool.false_eq_true, if_false, if_true]
  rw [splitOn_sepB_shapeB hn]
  simp only [List.headD_cons]
  have hlen : (n ++ sepB).length = n.length + 2 := by
    rw [sepB_eq]
    simp
  rw [hlen]
  by_cases h15 : 15 ≤ n.length
  · rw [if_pos h15, if_pos h15]
  · rw [if_neg h15, if_neg h15]

theorem score_digits {p : Str} (hd : DigitStr p) :
    _score p = some (if 15 ≤ p.length then 20 else 0) := by
  have hcA : pyContains sepA p = false := by
    unfold pyContains
    rw [breakOn_sepA_digits hd]
    rfl
  have hcB : pyContains sepB p = false := by
    unfold pyContains
    rw [breakOn_sepB_digits hd]
    rfl
  unfold _score
  rw [hcA, hcB]
  simp only [Bool.false_eq_true, if_false]

/-! ## Fold lemmas for `minDist` and `pyMaxBy` -/

theorem minDist_fold (g : Str) (l : List Str) : ∀ (acc : Option Nat) (d : Nat),
    l.foldl (minDistStep g) acc = some d →
    (∀ a, acc = some a → d ≤ a) ∧ (∀ c ∈ l, d ≤ _levenshtein c g) ∧
      ((∃ c ∈ l, _levenshtein c g = d) ∨ acc = some d) := by
  induction l with
  | nil =>
    intro acc d h
    simp only [List.foldl_nil] at h
    refine ⟨fun a ha => ?_, by simp, Or.inr h⟩
    rw [h] at ha
    exact le_of_eq (Option.some.inj ha)
  | cons c cs ih =>
    intro acc d h
    simp only [List.foldl_cons] at h
    obtain ⟨ih1, ih2, ih3⟩ := ih (minDistStep g acc c) d h
    cases acc with
    | none =>
      have hstep : minDistStep g none c = some (_levenshtein c g) := rfl
      have hd1 : d ≤ _levenshtein c g := ih1 _ hstep
      refine ⟨by simp, ?_, ?_⟩
      · intro c' hc'
        rcases List.mem_cons.mp hc' with rfl | hmem
        · exact hd1
        · exact ih2 c' hmem
      · rcases ih3 with ⟨c', hc', he⟩ | hacc
        · exact Or.inl ⟨c', List.mem_cons_of_mem _ hc', he⟩
        · rw [hstep] at hacc
          exact Or.inl ⟨c, List.mem_cons_self _ _, Option.some.inj hacc⟩
    | some bd =>
      set m := if _levenshtein c g < bd then _levenshtein c g else bd with hm
      have hstep : minDistStep g (some bd) c = some m := rfl
      have hd1 : d ≤ m := ih1 _ hstep
      have hmbd : m ≤ bd := by
        rw [hm]
        split <;> omega
      have hmlev : m ≤ _levenshtein c g := by
        rw [hm]
        split <;> omega
      refine ⟨?_, ?_, ?_⟩
      · intro a ha
        have : a = bd := (Option.some.inj ha).symm
        omega
      · intro c' hc'
        rcases List.mem_cons.mp hc' with rfl | hmem
        · omega
        · exact ih2 c' hmem
      · rcases ih3 with ⟨c', hc', he⟩ | hacc
        · exact Or.inl ⟨c', List.mem_cons_of_mem _ hc', he⟩
        · rw [hstep] at hacc
          have hdm : m = d := Option.some.inj hacc
          rw [hm] at hdm
          by_cases hlt : _levenshtein c g < bd
          · rw [if_pos hlt] at hdm
            exact Or.inl ⟨c, List.mem_cons_self _ _, hdm⟩
          · rw [if_neg hlt] at hdm
            exact Or.inr (by rw [hdm])

theorem minDist_spec {g : Str} {l : List Str} {d : Nat} (h : minDist g l = some d) :
    (∀ c ∈ l, d ≤ _levenshtein c g) ∧ ∃ c ∈ l, _levenshtein c g = d := by
  obtain ⟨_, h2, h3⟩ := minDist_fold g l none d h
  refine ⟨h2, ?_⟩
  rcases h3 with h3 | h3
  · exact h3
  · exact absurd h3 (by simp)

theorem pyMax_fold (key : Str → Nat) : ∀ (xs : List Str) (x : Str),
    ∃ l1 l2, x :: xs = l1 ++ (xs.foldl (pyMaxStep key) x) :: l2 ∧
      (∀ c ∈ l1, key c < key (xs.foldl (pyMaxStep key) x)) ∧
      (∀ c ∈ l2, key c ≤ key (xs.foldl (pyMaxStep key) x)) := by
  intro xs
  induction xs with
  | nil =>
    intro x
    exact ⟨[], [], rfl, by simp, by simp⟩
  | cons y ys ih =>
    intro x
    simp only [List.foldl_cons]
    by_cases hxy : key x < key y
    · have hstep : pyMaxStep key x y = y := by
        unfold pyMaxStep
        rw [if_pos hxy]
      rw [hstep]
      obtain ⟨l1, l2, hdec, h1, h2⟩ := ih y
      refine ⟨x :: l1, l2, by rw [List.cons_append, ← hdec], ?_, h2⟩
      intro c hc
      rcases List.mem_cons.mp hc with rfl | hmem
      · cases l1 with
        | nil =>
          have hb : ys.foldl (pyMaxStep key) y = y := by
            have := hdec
            simp only [List.nil_append] at this
            exact (List.cons.inj this).1.symm
          rw [hb]
          exact hxy
        | cons z l1' =>
          have hz : z = y := by
            have := hdec
            simp only [List.cons_append] at this
            exact (List.cons.inj this).1.symm
          have hy1 : y ∈ z :: l1' := by
            rw [hz]
            exact List.mem_cons_self _ _
          exact lt_trans hxy (h1 y hy1)
      · exact h1 c hmem
    · have hstep : pyMaxStep key x y = x := by
        unfold pyMaxStep
        rw [if_neg hxy]
      rw [hstep]
      obtain ⟨l1, l2, hdec, h1, h2⟩ := ih x
      cases l1 with
      | nil =>
        simp only [List.nil_append] at hdec
        have hb : ys.foldl (pyMaxStep key) x = x := (List.cons.inj hdec).1.symm
        have hl2 : l2 = ys := (List.cons.inj hdec).2.symm
        refine ⟨[], y :: ys, by rw [List.nil_append, hb], by simp, ?_⟩
        intro c hc
        rcases List.mem_cons.mp hc with rfl | hmem
        · rw [hb]
          omega
        · rw [← hl2] at hmem
          exact h2 c hmem
      | cons z l1' =>
        simp only [List.cons_append] at hdec
        have hz : z = x := (List.cons.inj hdec).1.symm
        have hys : ys = l1' ++ ys.foldl (pyMaxStep key) x :: l2 := (List.cons.inj hdec).2
        have hxb : key x < key (ys.foldl (pyMaxStep key) x) := by
          refine h1 x ?_
          rw [hz] at *
          exact List.mem_cons_self _ _
        refine ⟨x :: y :: l1', l2, ?_, ?_, h2⟩
        · rw [List.cons_append, List.cons_append, ← hys]
        · intro c hc
          rcases List.mem_cons.mp hc with rfl | hmem
          · exact hxb
          rcases List.mem_cons.mp hmem with rfl | hmem'
          · omega
          · refine h1 c ?_
            rw [hz] at *
            exact List.mem_cons_of_mem _ hmem'

theorem pyMaxBy_first (key : Str → Nat) (l : List Str) (hl : l ≠ []) :
    ∃ b l1 l2, pyMaxBy key l = some b ∧ l = l1 ++ b :: l2 ∧
      (∀ c ∈ l1, key c < key b) ∧ (∀ c ∈ l2, key c ≤ key b) := by
  cases l with
  | nil => exact absurd rfl hl
  | cons x xs =>
    obtain ⟨l1, l2, hdec, h1, h2⟩ := pyMax_fold key xs x
    exact ⟨xs.foldl (pyMaxStep key) x, l1, l2, rfl, hdec, h1, h2⟩

/-! ## Unfolding lemmas for `choose_best` -/

theorem uniqFirstSeen_cons (c : Str) (cs : List Str) :
    uniqFirstSeen (c :: cs) = c :: uniqAux [c] cs := by
  have h : uniqFirstSeen (c :: cs) =
      if c ∈ ([] : List Str) then uniqAux [] cs else c :: uniqAux [c] cs := rfl
  rw [h, if_neg (List.not_mem_nil c)]

theorem uniqFirstSeen_ne_nil {raw : List Str} (h : raw ≠ []) :
    uniqFirstSeen raw ≠ [] := by
  cases raw with
  | nil => exact absurd rfl h
  | cons c cs =>
    rw [uniqFirstSeen_cons]
    simp

theorem choose_best_gt_none {maxSnap : Nat} {raw : List Str} {sm : Str → Nat}
    (h : raw ≠ []) :
    choose_best maxSnap raw sm none = pyMaxBy sm (uniqFirstSeen raw) := by
  cases raw with
  | nil => exact absurd rfl h
  | cons c cs => rfl

theorem choose_best_gt_empty {maxSnap : Nat} {raw : List Str} {sm : Str → Nat}
    (h : raw ≠ []) :
    choose_best maxSnap raw sm (some []) = pyMaxBy sm (uniqFirstSeen raw) := by
  cases raw with
  | nil => exact absurd rfl h
  | cons c cs => rfl

theorem choose_best_gt_some {maxSnap : Nat} {raw : List Str} {sm : Str → Nat}
    {g : Str} {d : Nat} (h : raw ≠ []) (hg : g ≠ [])
    (hd : minDist g (uniqFirstSeen raw) = some d) :
    choose_best maxSnap raw sm (some g) =
      if d ≤ maxSnap then some g else pyMaxBy sm (uniqFirstSeen raw) := by
  cases raw with
  | nil => exact absurd rfl h
  | cons c cs =>
    cases g with
    | nil => exact absurd rfl hg
    | cons gc gcs =>
      show (if (gc :: gcs).isEmpty then _ else _) = _
      simp only [List.isEmpty_cons, Bool.false_eq_true, if_false]
      rw [hd]

/-! ## ScoreMap aggregation lemma -/

theorem buildScoreMap_spec : ∀ (cands : List Str) (m0 m : Str → Nat),
    buildScoreMap cands m0 = some m →
    ∀ c, m c = max (m0 c) (listMax (occurScores cands c)) := by
  intro cands
  induction cands with
  | nil =>
    intro m0 m h c
    have hm : m0 = m := Option.some.inj h
    rw [← hm]
    simp [occurScores, listMax]
  | cons d cs ih =>
    intro m0 m h c
    unfold buildScoreMap at h
    cases hsc : _score d with
    | none => rw [hsc] at h; simp at h
    | some sc =>
      rw [hsc] at h
      simp only [Option.some_bind] at h
      have := ih (updMap m0 d (max (m0 d) sc)) m h c
      by_cases hcd : c = d
      · subst hcd
        have hupd : updMap m0 c (max (m0 c) sc) c = max (m0 c) sc := by
          unfold updMap
          simp
        rw [hupd] at this
        have hocc : occurScores (c :: cs) c = sc :: occurScores cs c := by
          unfold occurScores
          simp only [List.filter_cons, beq_self_eq_true, if_true]
          rw [List.filterMap_cons, hsc]
        rw [hocc, this]
        show max (max (m0 c) sc) (listMax (occurScores cs c)) =
          max (m0 c) (max sc (listMax (occurScores cs c)))
        omega
      · have hupd : updMap m0 d (max (m0 d) sc) c = m0 c := by
          unfold updMap
          simp [hcd]
        rw [hupd] at this
        have hocc : occurScores (d :: cs) c = occurScores cs c := by
          unfold occurScores
          have : (d == c) = false := by
            simp only [beq_eq_false_iff_ne]
            exact fun he => hcd he.symm
          simp [List.filter_cons, this]
        rw [hocc, this]

/-! ## Membership lemma for `appendNorms` -/

theorem appendNorms_mem : ∀ (ms out : List Str), appendNorms ms = some out →
    ∀ c ∈ out, (∃ m ∈ ms, _norm m = some c) ∧ c ≠ [] := by
  intro ms
  induction ms with
  | nil =>
    intro out h c hc
    have : ([] : List Str) = out := Option.some.inj h
    rw [← this] at hc
    cases hc
  | cons m ms' ih =>
    intro out h c hc
    unfold appendNorms at h
    cases hn : _norm m with
    | none => rw [hn] at h; exact Option.noConfusion h
    | some n =>
      rw [hn] at h
      simp only [Option.some_bind] at h
      cases hrest : appendNorms ms' with
      | none => rw [hrest] at h; exact Option.noConfusion h
      | some rest =>
        rw [hrest] at h
        have hout : (if n.isEmpty then rest else n :: rest) = out := Option.some.inj h
        by_cases hne : n.isEmpty
        · rw [if_pos hne] at hout
          rw [← hout] at hc
          obtain ⟨⟨m', hm', he⟩, hcne⟩ := ih rest hrest c hc
          exact ⟨⟨m', List.mem_cons_of_mem _ hm', he⟩, hcne⟩
        · rw [if_neg hne] at hout
          rw [← hout] at hc
          rcases List.mem_cons.mp hc with rfl | hmem
          · refine ⟨⟨m, List.mem_cons_self _ _, hn⟩, ?_⟩
            intro hnil
            rw [hnil] at hne
            exact hne rfl
          · obtain ⟨⟨m', hm', he⟩, hcne⟩ := ih rest hrest c hmem
            exact ⟨⟨m', List.mem_cons_of_mem _ hm', he⟩, hcne⟩

/-! ## No-digit-run lemmas (pipeline returns none without a 15-digit run) -/

theorem patterns_digit_head :
    ∀ pat ∈ patterns, ∃ lo hi rest, pat = ⟨CC.digit, lo, hi⟩ :: rest ∧ 15 ≤ lo := by
  intro pat hp
  unfold patterns at hp
  rcases List.mem_cons.mp hp with rfl | hp
  · exact ⟨18, some 18, _, rfl, by omega⟩
  rcases List.mem_cons.mp hp with rfl | hp
  · exact ⟨15, some 20, _, rfl, by omega⟩
  rcases List.mem_cons.mp hp with rfl | hp
  · exact ⟨15, some 20, _, rfl, by omega⟩
  rcases List.mem_cons.mp hp with rfl | hp
  · exact ⟨15, some 20, _, rfl, by omega⟩
  rcases List.mem_cons.mp hp with rfl | hp
  · exact ⟨15, some 20, _, rfl, by omega⟩
  cases hp

theorem matchItems_cons (it : RItem) (rest : List RItem) (s : Str) :
    matchItems (it :: rest) s =
      firstSome
        (fun k => (matchItems rest (s.drop k)).map (fun pr => (s.take k ++ pr.1, pr.2)))
        (downList it.lo
          (match it.hi with
           | some h => min h (s.takeWhile (ccFn it.cc)).length
           | none => (s.takeWhile (ccFn it.cc)).length)) := rfl

theorem matchItems_digit_none {lo : Nat} {hi : Option Nat} {rest : List RItem}
    {s : Str} (hlo : 15 ≤ lo) (hrun : (s.takeWhile pyIsDigit).length < 15) :
    matchItems (⟨CC.digit, lo, hi⟩ :: rest) s = none := by
  have hr2 : (s.takeWhile (ccFn CC.digit)).length < 15 := hrun
  cases hi with
  | some h =>
    rw [matchItems_cons]
    dsimp only
    have hz : min h (s.takeWhile (ccFn CC.digit)).length + 1 - lo = 0 := by
      have := min_le_right h (s.takeWhile (ccFn CC.digit)).length
      omega
    unfold downList
    rw [hz]
    rfl
  | none =>
    rw [matchItems_cons]
    dsimp only
    have hz : (s.takeWhile (ccFn CC.digit)).length + 1 - lo = 0 := by omega
    unfold downList
    rw [hz]
    rfl

theorem hasRunGe_cons_false {k : Nat} {c : Char} {cs : Str}
    (h : hasRunGe k (c :: cs) = false) :
    ¬ k ≤ ((c :: cs).takeWhile pyIsDigit).length ∧ hasRunGe k cs = false := by
  unfold hasRunGe at h
  by_cases hk : k ≤ ((c :: cs).takeWhile pyIsDigit).length
  · rw [if_pos hk] at h
    exact absurd h (by simp)
  · rw [if_neg hk] at h
    exact ⟨hk, h⟩

theorem finditerAux_succ (f : Nat) (pat : List RItem) (s : Str) :
    finditerAux (f + 1) pat s =
      match matchItems pat s with
      | some (m, r) =>
        if m.isEmpty then
          match s with
          | [] => [m]
          | _ :: cs => m :: finditerAux f pat cs
        else m :: finditerAux f pat r
      | none =>
        match s with
        | [] => []
        | _ :: cs => finditerAux f pat cs := rfl

theorem finditerAux_empty {lo : Nat} {hi : Option Nat} {rest : List RItem}
    (hlo : 15 ≤ lo) :
    ∀ (fuel : Nat) (s : Str), hasRunGe 15 s = false →
      finditerAux fuel (⟨CC.digit, lo, hi⟩ :: rest) s = [] := by
  intro fuel
  induction fuel with
  | zero => intro s _; rfl
  | succ f ih =>
    intro s hs
    rw [finditerAux_succ]
    cases s with
    | nil =>
      rw [matchItems_digit_none hlo (by simp)]
    | cons c cs =>
      obtain ⟨hrun, hcs⟩ := hasRunGe_cons_false hs
      rw [matchItems_digit_none hlo (by omega)]
      exact ih cs hcs

theorem flatMap_nil_of {α β : Type} {l : List α} {f : α → List β}
    (h : ∀ x ∈ l, f x = []) : l.flatMap f = [] := by
  induction l with
  | nil => rfl
  | cons x xs ih =>
    rw [List.flatMap_cons, h x (List.mem_cons_self _ _),
      ih (fun y hy => h y (List.mem_cons_of_mem _ hy))]
    rfl

theorem extract_from_text_empty {t : Str} (h : hasRunGe 15 (_clean_text t) = false) :
    _extract_from_text t = some [] := by
  unfold _extract_from_text
  have hfm : patterns.flatMap (fun pat => finditer pat (_clean_text t)) = [] := by
    refine flatMap_nil_of ?_
    intro pat hp
    obtain ⟨lo, hi, rest, rfl, hlo⟩ := patterns_digit_head pat hp
    unfold finditer
    exact finditerAux_empty hlo _ _ h
  show appendNorms (patterns.flatMap fun pat => finditer pat (_clean_text t)) = some []
  rw [hfm]
  rfl

theorem collectCands_empty {texts : List Str}
    (h : ∀ t ∈ texts, _extract_from_text t = some []) : collectCands texts = some [] := by
  induction texts with
  | nil => rfl
  | cons t ts ih =>
    unfold collectCands
    rw [h t (List.mem_cons_self _ _), ih (fun u hu => h u (List.mem_cons_of_mem _ hu))]
    rfl

theorem choose_best_gt_mdnone {maxSnap : Nat} {raw : List Str} {sm : Str → Nat}
    {g : Str} (h : raw ≠ []) (hg : g ≠ [])
    (hd : minDist g (uniqFirstSeen raw) = none) :
    choose_best maxSnap raw sm (some g) = pyMaxBy sm (uniqFirstSeen raw) := by
  cases raw with
  | nil => exact absurd rfl h
  | cons c cs =>
    cases g with
    | nil => exact absurd rfl hg
    | cons gc gcs =>
      show (if (gc :: gcs).isEmpty then _ else _) = _
      simp only [List.isEmpty_cons, Bool.false_eq_true, if_false]
      rw [hd]

/-! ## Claim theorems -/

/-- C1: for every non-empty candidate list and every supplied (truthy)
ReferenceText, `choose_best` computes the Levenshtein edit distance from each
unique candidate to the reference; `d` below is exactly the minimum `d*` of
those distances (first two conjuncts).  If `d* ≤ 3` (the default
`maxSnapDistance`) the selector returns the ReferenceText itself, and if
`d* ≥ 4` it does not snap but falls through to score-based selection; in
particular distance exactly 3 snaps and distance exactly 4 does not. -/
theorem choose_best_snap_threshold (raw : List Str) (sm : Str → Nat) (g : Str)
    (hraw : raw ≠ []) (hg : g ≠ []) (d : Nat)
    (hd : minDist g (uniqFirstSeen raw) = some d) :
    (∀ c ∈ uniqFirstSeen raw, d ≤ _levenshtein c g) ∧
    (∃ c ∈ uniqFirstSeen raw, _levenshtein c g = d) ∧
    (d ≤ 3 → choose_best 3 raw sm (some g) = some g) ∧
    (4 ≤ d → choose_best 3 raw sm (some g) = pyMaxBy sm (uniqFirstSeen raw)) := by
  obtain ⟨h1, h2⟩ := minDist_spec hd
  refine ⟨h1, h2, ?_, ?_⟩
  · intro hle
    rw [choose_best_gt_some hraw hg hd, if_pos hle]
  · intro hge
    rw [choose_best_gt_some hraw hg hd, if_neg (by omega)]

/-- Witness for C1: the single candidate `"ab"` has edit distance exactly 3
to the reference `"abxyz"` (snap: the reference is returned) and exactly 4 to
`"abwxyz"` (no snap: the scored candidate is returned). -/
theorem choose_best_snap_threshold_witness :
    choose_best 3 [String.toList "ab"] (fun _ => 0) (some (String.toList "abxyz")) =
      some (String.toList "abxyz") ∧
    choose_best 3 [String.toList "ab"] (fun _ => 0) (some (String.toList "abwxyz")) =
      some (String.toList "ab") := by
  constructor
  · exact (choose_best_snap_threshold [String.toList "ab"] (fun _ => 0)
      (String.toList "abxyz") (by decide) (by decide) 3 (by decide)).2.2.1 (by decide)
  · have h := (choose_best_snap_threshold [String.toList "ab"] (fun _ => 0)
      (String.toList "abwxyz") (by decide) (by decide) 4 (by decide)).2.2.2 (by decide)
    rw [h]
    decide

/-- C2 counterexample: the normalized candidate `"1234567890123_1"` (a
`digits_1` shape whose digit run has length 13, total length 15) is scored 20
by the implementation, while the spec's case analysis assigns it 0: the code
falls through to the bare-length rule instead of returning 0. -/
theorem score_digits1_counterexample :
    _norm (String.toList "1234567890123_1") = some (String.toList "1234567890123_1") ∧
    _score (String.toList "1234567890123_1") = some 20 ∧
    specScore (String.toList "1234567890123_1") = 0 ∧
    _score (String.toList "1234567890123_1") ≠
      some (specScore (String.toList "1234567890123_1")) := by
  refine ⟨by decide, by decide, by decide, by decide⟩

/-- C2 amended: scorer cases as the code computes them.  For the
`digits_1_suffix` shape the spec's description is exact (base 20, +100 for an
18-digit run else +80 for a run of at least 16, +50 for a 3-letter suffix).
For the `digits_1` shape the score is 60 when the digit run has length at
least 15; otherwise the code falls through to the bare rule applied to the
whole string (20 when the total length, digit run plus the two separator
characters, is at least 15, else 0).  For a bare digit candidate: 20 when the
length is at least 15, else 0. -/
theorem score_cases_amended :
    (∀ n s : Str, DigitStr n → LowerStr s → _score (n ++ sepA ++ s) =
      some ((if n.length == 18 then 100 else if 16 ≤ n.length then 80 else 0) +
        (if s.length == 3 then 50 else 0) + 20)) ∧
    (∀ n : Str, DigitStr n → _score (n ++ sepB) =
      some (if 15 ≤ n.length then 60 else if 15 ≤ n.length + 2 then 20 else 0)) ∧
    (∀ p : Str, DigitStr p → _score p = some (if 15 ≤ p.length then 20 else 0)) :=
  ⟨fun _ _ hn hs => score_shapeA hn hs, fun _ hn => score_shapeB hn,
    fun _ hd => score_digits hd⟩

/-- Witness for the amended C2: concrete evaluations in each of the three
shape cases, including the fall-through score of 20. -/
theorem score_cases_amended_witness :
    _score (String.toList "123456789012345678" ++ sepA ++ String.toList "abc") =
      some 170 ∧
    _score (String.toList "1234567890123" ++ sepB) = some 20 ∧
    _score (String.toList "123456789012345") = some 20 := by
  refine ⟨?_, ?_, ?_⟩
  · rw [score_cases_amended.1 _ _ (by decide) (by decide)]
    decide
  · rw [score_cases_amended.2.1 _ (by decide)]
    decide
  · rw [score_cases_amended.2.2 _ (by decide)]
    decide

/-- C3: every candidate emitted by `_extract_from_text` (over any input
string, when no exception occurs) is of one of the three canonical forms
`<digits>_1_<letters>` (lower-case suffix), `<digits>_1`, or `<digits>`, and
an empty normalized string is never emitted. -/
theorem extract_candidates_canonical (text : Str) (out : List Str)
    (h : _extract_from_text text = some out) :
    ∀ c ∈ out, Canonical c ∧ c ≠ [] := by
  intro c hc
  unfold _extract_from_text at h
  obtain ⟨⟨m, _, hnorm⟩, hne⟩ := appendNorms_mem _ _ h c hc
  exact ⟨norm_canonical hnorm, hne⟩

/-- Witness for C3: a concrete extraction whose (single) candidate the
theorem certifies canonical and non-empty. -/
theorem extract_candidates_canonical_witness :
    _extract_from_text (String.toList "123456789012345") =
      some [String.toList "123456789012345"] ∧
    ∀ c ∈ [String.toList "123456789012345"], Canonical c ∧ c ≠ [] :=
  ⟨by decide, extract_candidates_canonical (String.toList "123456789012345")
    [String.toList "123456789012345"] (by decide)⟩

/-- C4 counterexample: the raw pool `["12345678 9012345"]` contains no digit
run of length 15 or more in any pooled string, yet the pipeline does not
return the none result: `_clean_text` deletes the whitespace between digits,
producing a 15-digit run, and the candidate `"123456789012345"` is
returned. -/
theorem no_signal_counterexample :
    hasRunGe 15 (String.toList "12345678 9012345") = false ∧
    extract_best_from_texts [] 3 [String.toList "12345678 9012345"] none =
      some (some (String.toList "123456789012345")) ∧
    extract_best_from_texts [] 3 [String.toList "12345678 9012345"] none ≠
      some none := by
  refine ⟨by decide, by decide, by decide⟩

/-- C4 amended: when no string of the pool contains a digit run of length at
least 15 after cleaning (`_clean_text`, which collapses whitespace inside
digit runs), the pipeline returns the none result. -/
theorem no_signal_after_clean_none (gm : List (Str × Str)) (ms : Nat)
    (texts : List Str) (img : Option Str)
    (h : ∀ t ∈ texts, hasRunGe 15 (_clean_text t) = false) :
    extract_best_from_texts gm ms texts img = some none := by
  unfold extract_best_from_texts
  rw [collectCands_empty (fun t ht => extract_from_text_empty (h t ht))]
  rfl

/-- Witness for the amended C4: a pool with digit runs of length below 15
yields the none result. -/
theorem no_signal_after_clean_none_witness :
    extract_best_from_texts [] 3
      [String.toList "abc 1234", String.toList "12345678901234 x_1_y"] none =
      some none :=
  no_signal_after_clean_none _ _ _ _ (by decide)

/-- C5: the ScoreMap built by `extract_best_from_texts` maps every candidate
to the maximum of the scores of all its occurrences (`listMax` of
`occurScores`), never a lower earlier score and never the sum; in particular
two occurrences with scores `s1 < s2` yield exactly `s2`. -/
theorem scoremap_max_invariant (cands : List Str) (m : Str → Nat)
    (h : buildScoreMap cands (fun _ => 0) = some m) :
    (∀ c, m c = listMax (occurScores cands c)) ∧
    (∀ c s1 s2, occurScores cands c = [s1, s2] → s1 < s2 → m c = s2) := by
  have h1 : ∀ c, m c = listMax (occurScores cands c) := by
    intro c
    have h2 := buildScoreMap_spec cands (fun _ => 0) m h c
    simpa using h2
  refine ⟨h1, ?_⟩
  intro c s1 s2 hocc hlt
  rw [h1 c, hocc]
  show max s1 (max s2 0) = s2
  omega

/-- Witness for C5: a duplicated candidate's ScoreMap entry equals the
maximum of its occurrence scores. -/
theorem scoremap_max_invariant_witness :
    ∃ m : Str → Nat,
      buildScoreMap [String.toList "99_1_abc", String.toList "99_1_abc"]
        (fun _ => 0) = some m ∧
      m (String.toList "99_1_abc") =
        listMax (occurScores [String.toList "99_1_abc", String.toList "99_1_abc"]
          (String.toList "99_1_abc")) := by
  refine ⟨_, rfl, ?_⟩
  exact (scoremap_max_invariant
    [String.toList "99_1_abc", String.toList "99_1_abc"] _ rfl).1
    (String.toList "99_1_abc")

/-- C6: normalization is idempotent; every output of `_norm` is a fixed
point of `_norm`. -/
theorem norm_idempotent (x p : Str) (h : _norm x = some p) : _norm p = some p :=
  canonical_norm_fix (norm_canonical h)

/-- Witness for C6: a concrete normalization (stripping, filtering,
lower-casing) whose output the theorem certifies to be a fixed point. -/
theorem norm_idempotent_witness :
    _norm (String.toList " 99_1_AB7c ") = some (String.toList "99_1_abc") ∧
    _norm (String.toList "99_1_abc") = some (String.toList "99_1_abc") :=
  ⟨by decide, norm_idempotent (String.toList " 99_1_AB7c ")
    (String.toList "99_1_abc") (by decide)⟩

/-- C7: with no reference (or a reference no unique candidate is within snap
distance 3 of), the selector returns the unique candidate with the highest
score, and among equally scored candidates the one earliest in first-seen
order: the returned `b` splits the unique list into strictly-lower-scored
candidates before it and at-most-equal ones after it. -/
theorem choose_best_fallback_first_max (raw : List Str) (sm : Str → Nat)
    (gt : Option Str) (hraw : raw ≠ [])
    (hno : gt = none ∨ ∃ g, gt = some g ∧ g ≠ [] ∧
      ∀ d, minDist g (uniqFirstSeen raw) = some d → 3 < d) :
    ∃ b l1 l2, choose_best 3 raw sm gt = some b ∧
      uniqFirstSeen raw = l1 ++ b :: l2 ∧
      (∀ c ∈ l1, sm c < sm b) ∧ (∀ c ∈ l2, sm c ≤ sm b) := by
  have hmax : choose_best 3 raw sm gt = pyMaxBy sm (uniqFirstSeen raw) := by
    rcases hno with rfl | ⟨g, rfl, hg, hfar⟩
    · exact choose_best_gt_none hraw
    · cases hmd : minDist g (uniqFirstSeen raw) with
      | none => exact choose_best_gt_mdnone hraw hg hmd
      | some d =>
        rw [choose_best_gt_some hraw hg hmd, if_neg (by have := hfar d hmd; omega)]
  obtain ⟨b, l1, l2, hb, hdec, h1, h2⟩ :=
    pyMaxBy_first sm (uniqFirstSeen raw) (uniqFirstSeen_ne_nil hraw)
  exact ⟨b, l1, l2, by rw [hmax, hb], hdec, h1, h2⟩

/-- Witness for C7: with no reference, among `["a", "bb"]` under the length
score the selector picks `"bb"`, with `"a"` strictly below it. -/
theorem choose_best_fallback_first_max_witness :
    ∃ b l1 l2,
      choose_best 3 [String.toList "a", String.toList "bb"]
        (fun c => c.length) none = some b ∧
      uniqFirstSeen [String.toList "a", String.toList "bb"] = l1 ++ b :: l2 ∧
      (∀ c ∈ l1, c.length < b.length) ∧ (∀ c ∈ l2, c.length ≤ b.length) :=
  choose_best_fallback_first_max [String.toList "a", String.toList "bb"]
    (fun c => c.length) none (by decide) (Or.inl rfl)

/-- C8: with an empty candidate list the selector returns the none result for
every score map and every (possibly supplied) reference: the reference is
never emitted when no candidate was derived from recognized text. -/
theorem choose_best_empty_none (maxSnap : Nat) (sm : Str → Nat) (gt : Option Str) :
    choose_best maxSnap [] sm gt = none := rfl

/-- C9: the end-to-end scenario.  Both pooled strings normalize to the single
candidate `"156387426414724544_1_lwv"` (it is the normalization of the
pattern matches of both texts), and the pipeline returns exactly it. -/
theorem end_to_end_scenario :
    _extract_from_text (String.toList "reverseWaybill 156387426414724544_1_lWV") =
      some [String.toList "156387426414724544_1_lwv",
        String.toList "156387426414724544_1_lwv",
        String.toList "156387426414724544_1_lwv",
        String.toList "156387426414724544_1",
        String.toList "156387426414724544"] ∧
    _extract_from_text (String.toList "156387426414724544_1_lWV") =
      some [String.toList "156387426414724544_1_lwv",
        String.toList "156387426414724544_1_lwv",
        String.toList "156387426414724544_1_lwv",
        String.toList "156387426414724544_1",
        String.toList "156387426414724544"] ∧
    extract_best_from_texts [] 3
      [String.toList "reverseWaybill 156387426414724544_1_lWV",
        String.toList "156387426414724544_1_lWV"] none =
      some (some (String.toList "156387426414724544_1_lwv")) := by
  refine ⟨by decide, by decide, by decide⟩

/-- C10: an empty-string ReferenceText behaves exactly like no reference:
the selector's result coincides with the no-reference mode for every
candidate list and score map, and the pipeline treats an empty image name
exactly like an absent one (the ground-truth map is never consulted). -/
theorem empty_reference_like_none :
    (∀ (maxSnap : Nat) (raw : List Str) (sm : Str → Nat),
      choose_best maxSnap raw sm (some []) = choose_best maxSnap raw sm none) ∧
    (∀ (gm : List (Str × Str)) (ms : Nat) (texts : List Str),
      extract_best_from_texts gm ms texts (some []) =
        extract_best_from_texts gm ms texts none) := by
  constructor
  · intro maxSnap raw sm
    cases raw with
    | nil => rfl
    | cons c cs => rfl
  · intro gm ms texts
    rfl
